import Mathlib

/-!
Verification of a consistent-hashing ring (Go source `main.go`).

The embedding keeps the source's names: `hashKey`, `ConsistentHash`,
`NewConsistentHash`, `AddNode`, `RemoveNode`, `GetNode`.  32-bit values are
`Nat` with explicit `% 4294967296`; the Go map `map[uint32]string` becomes
`Nat → Option String` (reads through `Option.getD ""`, matching Go's
zero-value semantics); the Go set `map[string]bool` becomes `String → Bool`.
`sort.Slice` with a `<` comparator on the ring becomes a `≤`-insertion sort
(on `Nat` any correct sort produces the same list), and `sort.Search` is
translated as the same halving loop Go uses, made structural by fuel.
-/

/-! ### SHA-1 (the `crypto/sha1` digest used by `hashKey`), over byte lists -/

def rotl32 (n x : Nat) : Nat :=
  ((x <<< n) ||| (x >>> (32 - n))) % 4294967296

/-- UTF-8 encoding of one code point, as Go's `[]byte(string)` produces. -/
def utf8Bytes (c : Nat) : List Nat :=
  if c < 0x80 then [c]
  else if c < 0x800 then
    [0xC0 ||| (c >>> 6), 0x80 ||| (c &&& 0x3F)]
  else if c < 0x10000 then
    [0xE0 ||| (c >>> 12), 0x80 ||| ((c >>> 6) &&& 0x3F), 0x80 ||| (c &&& 0x3F)]
  else
    [0xF0 ||| (c >>> 18), 0x80 ||| ((c >>> 12) &&& 0x3F),
     0x80 ||| ((c >>> 6) &&& 0x3F), 0x80 ||| (c &&& 0x3F)]

/-- The bytes of a string, Go's `[]byte(key)`. -/
def strBytes (s : String) : List Nat :=
  (s.data.map (fun ch => utf8Bytes ch.toNat)).flatten

/-- Big-endian byte decomposition of `x` into `n` bytes. -/
def toBytesBE (n x : Nat) : List Nat :=
  (List.range n).map (fun i => (x >>> (8 * (n - 1 - i))) % 256)

/-- SHA-1 padding: `0x80`, zeros to 56 mod 64, then the 64-bit bit length. -/
def padMsg (msg : List Nat) : List Nat :=
  let len := msg.length
  let z := (120 - (len + 1) % 64) % 64
  msg ++ [0x80] ++ List.replicate z 0 ++ toBytesBE 8 (8 * len)

/-- Split into 64-byte blocks (fuel-structural; called with fuel = length). -/
def chunksGo : Nat → List Nat → List (List Nat)
  | 0, _ => []
  | _ + 1, [] => []
  | n + 1, l => l.take 64 :: chunksGo n (l.drop 64)

/-- The `i`-th big-endian 32-bit word of a 64-byte block. -/
def wordOf (bs : List Nat) (i : Nat) : Nat :=
  bs.getD (4 * i) 0 * 16777216 + bs.getD (4 * i + 1) 0 * 65536 +
    bs.getD (4 * i + 2) 0 * 256 + bs.getD (4 * i + 3) 0

/-- Extend the 16 block words to the 80-word SHA-1 message schedule. -/
def schedule (ws : List Nat) : List Nat :=
  (List.range 64).foldl
    (fun acc _ =>
      let n := acc.length
      acc ++ [rotl32 1 (acc.getD (n - 3) 0 ^^^ acc.getD (n - 8) 0 ^^^
                        acc.getD (n - 14) 0 ^^^ acc.getD (n - 16) 0)])
    ws

/-- One SHA-1 round: round `t` applied to the state `(a,b,c,d,e)`. -/
def sha1Round (w : List Nat) (st : Nat × Nat × Nat × Nat × Nat) (t : Nat) :
    Nat × Nat × Nat × Nat × Nat :=
  let (a, b, c, d, e) := st
  let f :=
    if t < 20 then (b &&& c) ||| ((b ^^^ 0xFFFFFFFF) &&& d)
    else if t < 40 then b ^^^ c ^^^ d
    else if t < 60 then (b &&& c) ||| (b &&& d) ||| (c &&& d)
    else b ^^^ c ^^^ d
  let k :=
    if t < 20 then 0x5A827999
    else if t < 40 then 0x6ED9EBA1
    else if t < 60 then 0x8F1BBCDC
    else 0xCA62C1D6
  let temp := (rotl32 5 a + f + e + k + w.getD t 0) % 4294967296
  (temp, a, rotl32 30 b, c, d)

/-- SHA-1 compression of a single 64-byte block into the running state. -/
def processBlock (h : Nat × Nat × Nat × Nat × Nat) (block : List Nat) :
    Nat × Nat × Nat × Nat × Nat :=
  let w := schedule ((List.range 16).map (wordOf block))
  let (a, b, c, d, e) := (List.range 80).foldl (sha1Round w) h
  let (h0, h1, h2, h3, h4) := h
  ((h0 + a) % 4294967296, (h1 + b) % 4294967296, (h2 + c) % 4294967296,
   (h3 + d) % 4294967296, (h4 + e) % 4294967296)

/-- SHA-1 digest: 20 bytes. -/
def sha1 (msg : List Nat) : List Nat :=
  let padded := padMsg msg
  let blocks := chunksGo padded.length padded
  let hs :=
    blocks.foldl processBlock (0x67452301, 0xEFCDAB89, 0x98BADCFE, 0x10325476, 0xC3D2E1F0)
  toBytesBE 4 hs.1 ++ toBytesBE 4 hs.2.1 ++ toBytesBE 4 hs.2.2.1 ++
    toBytesBE 4 hs.2.2.2.1 ++ toBytesBE 4 hs.2.2.2.2

/-- Go `hashKey`: first four digest bytes assembled by shifts and ors
(`uint32(b0)<<24 | uint32(b1)<<16 | uint32(b2)<<8 | uint32(b3)`). -/
def hashKey (key : String) : Nat :=
  let hashBytes := sha1 (strBytes key)
  (hashBytes.getD 0 0 <<< 24) ||| (hashBytes.getD 1 0 <<< 16) |||
    (hashBytes.getD 2 0 <<< 8) ||| hashBytes.getD 3 0

/-! ### The ring (`ConsistentHash` struct and its methods) -/

structure ConsistentHash where
  replicas : Nat
  hashRing : List Nat
  nodeMap : Nat → Option String
  actualNodes : String → Bool

/-- Go `NewConsistentHash`: empty ring, empty maps. -/
def NewConsistentHash (replicas : Nat) : ConsistentHash :=
  { replicas := replicas
    hashRing := []
    nodeMap := fun _ => none
    actualNodes := fun _ => false }

/-- Go `sort.Slice(ch.hashRing, less (<))` on a `Nat` list: the unique
nondecreasing reordering.  -/
def sortRing (l : List Nat) : List Nat :=
  l.insertionSort (· ≤ ·)

/-- One iteration of the `AddNode` loop body: append the virtual-node hash
to the ring and record its owner. -/
def addVirtual (node : String) (c : ConsistentHash) (i : Nat) : ConsistentHash :=
  let hash := hashKey (node ++ toString i)
  { c with
    hashRing := c.hashRing ++ [hash]
    nodeMap := fun p => if p = hash then some node else c.nodeMap p }

/-- Go `AddNode`. -/
def ConsistentHash.AddNode (ch : ConsistentHash) (node : String) : ConsistentHash :=
  if ch.actualNodes node then ch
  else
    let ch1 : ConsistentHash :=
      { ch with actualNodes := fun n => if n = node then true else ch.actualNodes n }
    let ch2 := (List.range ch.replicas).foldl (addVirtual node) ch1
    { ch2 with hashRing := sortRing ch2.hashRing }

/-- One iteration of the `RemoveNode` loop body over `(newRing, nodeMap)`:
keep `hash` if its current owner differs from `node`, otherwise delete its
owner entry. -/
def removeStep (node : String) (acc : List Nat × (Nat → Option String)) (hash : Nat) :
    List Nat × (Nat → Option String) :=
  if (acc.2 hash).getD "" ≠ node then (acc.1 ++ [hash], acc.2)
  else (acc.1, fun p => if p = hash then none else acc.2 p)

/-- Go `RemoveNode`. -/
def ConsistentHash.RemoveNode (ch : ConsistentHash) (node : String) : ConsistentHash :=
  if ch.actualNodes node then
    let res := ch.hashRing.foldl (removeStep node) ([], ch.nodeMap)
    { replicas := ch.replicas
      hashRing := res.1
      nodeMap := res.2
      actualNodes := fun n => if n = node then false else ch.actualNodes n }
  else ch

/-- Go `sort.Search`'s halving loop, made structural by fuel (the caller
passes fuel `n ≥ j - i`, which the halving never exhausts). -/
def searchLoop (f : Nat → Bool) : Nat → Nat → Nat → Nat
  | 0, i, _ => i
  | fuel + 1, i, j =>
    if i < j then
      let h := (i + j) / 2
      if f h then searchLoop f fuel i h else searchLoop f fuel (h + 1) j
    else i

/-- Go `sort.Search n f`. -/
def sortSearch (n : Nat) (f : Nat → Bool) : Nat :=
  searchLoop f n 0 n

/-- Go `GetNode`. -/
def ConsistentHash.GetNode (ch : ConsistentHash) (key : String) : String :=
  if ch.hashRing.length = 0 then ""
  else
    let hash := hashKey key
    let idx := sortSearch ch.hashRing.length (fun i => decide (ch.hashRing.getD i 0 ≥ hash))
    let idx := if idx = ch.hashRing.length then 0 else idx
    (ch.nodeMap (ch.hashRing.getD idx 0)).getD ""

/-- A `GetNode` method call as an operation on the receiver: the returned
string paired with the receiver's state when the call ends (the body of
`GetNode` contains no writes to `ch`). -/
def ConsistentHash.GetNodeCall (ch : ConsistentHash) (key : String) :
    String × ConsistentHash :=
  (ch.GetNode key, ch)

/-! ### Spec-side definitions (from the spec's words, for refinement claims) -/

/-- Big-endian interpretation of a byte list as an integer. -/
def beNat (bs : List Nat) : Nat :=
  bs.foldl (fun acc b => 256 * acc + b) 0

/-- Spec's resolution rule: the smallest position `≥ h`, and if none exists
the smallest (first) position of the ring (wraparound). -/
def clockwisePos (l : List Nat) (h : Nat) : Nat :=
  match (l.filter (fun p => decide (h ≤ p))).min? with
  | some p => p
  | none => l.min?.getD 0

/-- The positions of the ring not owned by `node` (those that survive
`RemoveNode node`). -/
def survivors (ch : ConsistentHash) (node : String) : List Nat :=
  ch.hashRing.filter (fun p => decide ((ch.nodeMap p).getD "" ≠ node))

/-- The `replicaCount` virtual positions `AddNode` computes for a node:
the hash of the identifier concatenated with the decimal form of
`i = 0 .. replicaCount-1`. -/
def virtualPositions (replicas : Nat) (node : String) : List Nat :=
  (List.range replicas).map (fun i => hashKey (node ++ toString i))

/-! ### Concrete rings used to instantiate hypotheses -/

/-- Two positions owned by nodes `A` and `B`. -/
def ringAB : ConsistentHash :=
  { replicas := 1
    hashRing := [10, 20]
    nodeMap := fun p => if p = 10 then some "A" else if p = 20 then some "B" else none
    actualNodes := fun n => n == "A" || n == "B" }

/-- A ring whose positions bracket `hashKey "k" = 335271836`. -/
def ringKW : ConsistentHash :=
  { replicas := 1
    hashRing := [335271836, 400000000]
    nodeMap := fun p =>
      if p = 335271836 then some "A" else if p = 400000000 then some "B" else none
    actualNodes := fun n => n == "A" || n == "B" }

/-- The same positions and owner mapping as `ringAB`, but different
`replicas` and `actualNodes` fields. -/
def ringABFrame : ConsistentHash :=
  { replicas := 7
    hashRing := [10, 20]
    nodeMap := fun p => if p = 10 then some "A" else if p = 20 then some "B" else none
    actualNodes := fun _ => false }

/-- A ring whose single position is owned by the empty-string node. -/
def ringNilName : ConsistentHash :=
  { replicas := 1
    hashRing := [5]
    nodeMap := fun p => if p = 5 then some "" else none
    actualNodes := fun n => n == "" }

/-! ### Lemmas about the binary search -/

theorem searchLoop_bounds (f : Nat → Bool) :
    ∀ fuel i j : Nat, i ≤ j → i ≤ searchLoop f fuel i j ∧ searchLoop f fuel i j ≤ j := by
  intro fuel
  induction fuel with
  | zero => intro i j hij; exact ⟨le_rfl, hij⟩
  | succ fuel ih =>
    intro i j hij
    simp only [searchLoop]
    by_cases h1 : i < j
    · simp only [if_pos h1]
      by_cases h2 : f ((i + j) / 2)
      · simp only [if_pos h2]
        have := ih i ((i + j) / 2) (by omega)
        omega
      · simp only [if_neg h2]
        have := ih ((i + j) / 2 + 1) j (by omega)
        omega
    · simp only [if_neg h1]
      exact ⟨le_rfl, hij⟩

theorem searchLoop_found (f : Nat → Bool) (n : Nat)
    (hmono : ∀ a b, a ≤ b → b < n → f a = true → f b = true) :
    ∀ fuel i j : Nat, i ≤ j → j ≤ n → j - i ≤ fuel →
      (∀ m, m < i → f m = false) → (∀ m, j ≤ m → m < n → f m = true) →
      (∀ m, m < searchLoop f fuel i j → f m = false) ∧
        (searchLoop f fuel i j < n → f (searchLoop f fuel i j) = true) ∧
        searchLoop f fuel i j ≤ n := by
  intro fuel
  induction fuel with
  | zero =>
    intro i j hij hjn hfuel hlow hhigh
    have hij' : i = j := by omega
    subst hij'
    exact ⟨hlow, fun h => hhigh i le_rfl h, hjn⟩
  | succ fuel ih =>
    intro i j hij hjn hfuel hlow hhigh
    simp only [searchLoop]
    by_cases h1 : i < j
    · simp only [if_pos h1]
      by_cases h2 : f ((i + j) / 2)
      · simp only [if_pos h2]
        exact ih i ((i + j) / 2) (by omega) (by omega) (by omega) hlow
          (fun m hm hmn => hmono ((i + j) / 2) m hm hmn h2)
      · simp only [if_neg h2]
        refine ih ((i + j) / 2 + 1) j (by omega) hjn (by omega) ?_ hhigh
        intro m hm
        rcases Nat.lt_or_ge m i with hmi | hmi
        · exact hlow m hmi
        · cases hfm : f m with
          | false => rfl
          | true =>
            have : f ((i + j) / 2) = true :=
              hmono m ((i + j) / 2) (by omega) (by omega) hfm
            simp [h2] at this
    · simp only [if_neg h1]
      have hij' : i = j := by omega
      subst hij'
      exact ⟨hlow, fun h => hhigh i le_rfl h, hjn⟩

theorem sortSearch_spec (n : Nat) (f : Nat → Bool)
    (hmono : ∀ a b, a ≤ b → b < n → f a = true → f b = true) :
    (∀ m, m < sortSearch n f → f m = false) ∧
      (sortSearch n f < n → f (sortSearch n f) = true) ∧ sortSearch n f ≤ n :=
  searchLoop_found f n hmono n 0 n (Nat.zero_le n) le_rfl (by omega)
    (fun m hm => absurd hm (Nat.not_lt_zero m)) (fun m h1 h2 => absurd h2 (by omega))

theorem sortSearch_le (n : Nat) (f : Nat → Bool) : sortSearch n f ≤ n :=
  (searchLoop_bounds f n 0 n (Nat.zero_le n)).2

/-! ### Lemmas about list indexing on sorted lists -/

theorem getD_eq_getElem_zero (l : List Nat) {i : Nat} (h : i < l.length) :
    l.getD i 0 = l[i] := by
  simp [List.getD_eq_getElem?_getD, List.getElem?_eq_getElem h]

theorem sorted_getD_mono (l : List Nat) (hs : l.Sorted (· ≤ ·)) {a b : Nat}
    (hab : a ≤ b) (hb : b < l.length) : l.getD a 0 ≤ l.getD b 0 := by
  have ha : a < l.length := lt_of_le_of_lt hab hb
  rw [getD_eq_getElem_zero l ha, getD_eq_getElem_zero l hb]
  have := hs.rel_get_of_le (a := ⟨a, ha⟩) (b := ⟨b, hb⟩) hab
  simpa using this

/-! ### Unfolding lemmas for `GetNode` -/

theorem GetNode_eq (ch : ConsistentHash) (key : String) (h : ¬ ch.hashRing.length = 0) :
    ch.GetNode key =
      (ch.nodeMap (ch.hashRing.getD
        (if sortSearch ch.hashRing.length
              (fun i => decide (ch.hashRing.getD i 0 ≥ hashKey key)) = ch.hashRing.length
         then 0
         else sortSearch ch.hashRing.length
              (fun i => decide (ch.hashRing.getD i 0 ≥ hashKey key))) 0)).getD "" := by
  unfold ConsistentHash.GetNode
  rw [if_neg h]

theorem GetNode_nil (ch : ConsistentHash) (key : String) (h : ch.hashRing = []) :
    ch.GetNode key = "" := by
  unfold ConsistentHash.GetNode
  rw [if_pos (by simp [h])]

theorem GetNode_mem (ch : ConsistentHash) (key : String) (hne : ch.hashRing ≠ []) :
    ∃ p ∈ ch.hashRing, ch.GetNode key = (ch.nodeMap p).getD "" := by
  have hlen : ¬ ch.hashRing.length = 0 := by
    simpa [List.length_eq_zero] using hne
  set n := ch.hashRing.length with hn
  set r := sortSearch n (fun i => decide (ch.hashRing.getD i 0 ≥ hashKey key)) with hr
  have hrn : r ≤ n := sortSearch_le _ _
  have hidx : (if r = n then 0 else r) < n := by
    by_cases hcase : r = n
    · simp only [if_pos hcase]; omega
    · simp only [if_neg hcase]; omega
  refine ⟨ch.hashRing.getD (if r = n then 0 else r) 0, ?_, ?_⟩
  · rw [getD_eq_getElem_zero _ hidx]
    exact List.getElem_mem hidx
  · rw [GetNode_eq ch key hlen]

/-! ### The clockwise successor characterization of `GetNode` -/

theorem clockwisePos_of_found (l : List Nat) (h : Nat) {p : Nat}
    (hmin : (l.filter (fun q => decide (h ≤ q))).min? = some p) :
    clockwisePos l h = p := by
  unfold clockwisePos
  rw [hmin]

theorem clockwisePos_of_none (l : List Nat) (h : Nat)
    (hmin : (l.filter (fun q => decide (h ≤ q))).min? = none) :
    clockwisePos l h = l.min?.getD 0 := by
  unfold clockwisePos
  rw [hmin]

/-- Sorted nonempty list: its `min?` is its first element. -/
theorem sorted_min?_eq (l : List Nat) (hs : l.Sorted (· ≤ ·)) (hne : l ≠ []) :
    l.min? = some (l.getD 0 0) := by
  have hlen : 0 < l.length := List.length_pos.2 hne
  rw [List.min?_eq_some_iff']
  constructor
  · rw [getD_eq_getElem_zero l hlen]
    exact List.getElem_mem hlen
  · intro b hb
    obtain ⟨m, hm, rfl⟩ := List.mem_iff_getElem.1 hb
    rw [← getD_eq_getElem_zero l hm]
    exact sorted_getD_mono l hs (Nat.zero_le m) hm

/-- C1 core: on a sorted nonempty ring, `GetNode` returns the owner of the
smallest position `≥ hashKey key`, or of the smallest position if none. -/
theorem GetNode_clockwise (ch : ConsistentHash) (key : String)
    (hs : ch.hashRing.Sorted (· ≤ ·)) (hne : ch.hashRing ≠ []) :
    ch.GetNode key = (ch.nodeMap (clockwisePos ch.hashRing (hashKey key))).getD "" := by
  have hlen : ¬ ch.hashRing.length = 0 := by
    simpa [List.length_eq_zero] using hne
  set l := ch.hashRing with hl
  set n := l.length with hn
  set f : Nat → Bool := fun i => decide (l.getD i 0 ≥ hashKey key) with hf
  have hmono : ∀ a b, a ≤ b → b < n → f a = true → f b = true := by
    intro a b hab hb hfa
    have ha := of_decide_eq_true hfa
    exact decide_eq_true (le_trans ha (sorted_getD_mono l hs hab hb))
  obtain ⟨hbelow, hat, hle⟩ := sortSearch_spec n f hmono
  set r := sortSearch n f with hr
  rw [GetNode_eq ch key hlen]
  by_cases hcase : r = n
  · -- no position is ≥ the hash: wraparound to index 0
    have hfilter : l.filter (fun q => decide (hashKey key ≤ q)) = [] := by
      rw [List.filter_eq_nil_iff]
      intro a ha
      obtain ⟨m, hm, rfl⟩ := List.mem_iff_getElem.1 ha
      have : f m = false := hbelow m (by omega)
      have : ¬ (l.getD m 0 ≥ hashKey key) := of_decide_eq_false this
      rw [getD_eq_getElem_zero l hm] at this
      simpa using this
    have hcp : clockwisePos l (hashKey key) = l.getD 0 0 := by
      rw [clockwisePos_of_none l _ (by rw [hfilter]; rfl),
          sorted_min?_eq l hs hne]
      rfl
    rw [hcp]
    simp only [← hr, ← hn, if_pos hcase]
  · -- found: index r holds the smallest position ≥ the hash
    have hrn : r < n := lt_of_le_of_ne hle hcase
    have hfr : (hashKey key ≤ l.getD r 0) := by
      have := of_decide_eq_true (hat hrn)
      exact this
    have hmin : (l.filter (fun q => decide (hashKey key ≤ q))).min? = some (l.getD r 0) := by
      rw [List.min?_eq_some_iff']
      constructor
      · rw [List.mem_filter]
        refine ⟨?_, decide_eq_true hfr⟩
        rw [getD_eq_getElem_zero l hrn]
        exact List.getElem_mem hrn
      · intro b hb
        rw [List.mem_filter] at hb
        obtain ⟨hbmem, hbge⟩ := hb
        obtain ⟨m, hm, rfl⟩ := List.mem_iff_getElem.1 hbmem
        rcases Nat.lt_or_ge m r with hmr | hmr
        · exfalso
          have : f m = false := hbelow m hmr
          have hlt : ¬ (l.getD m 0 ≥ hashKey key) := of_decide_eq_false this
          rw [getD_eq_getElem_zero l hm] at hlt
          exact hlt (of_decide_eq_true hbge)
        · rw [← getD_eq_getElem_zero l hm]
          exact sorted_getD_mono l hs hmr hm
    rw [clockwisePos_of_found l _ hmin]
    simp only [← hr, ← hn, if_neg hcase]

/-! ### Characterization of the `AddNode` loop -/

theorem addFold_replicas (X : String) :
    ∀ (l : List Nat) (c : ConsistentHash),
      (l.foldl (addVirtual X) c).replicas = c.replicas := by
  intro l
  induction l with
  | nil => intro c; rfl
  | cons a t ih => intro c; rw [List.foldl_cons, ih]; rfl

theorem addFold_actualNodes (X : String) :
    ∀ (l : List Nat) (c : ConsistentHash),
      (l.foldl (addVirtual X) c).actualNodes = c.actualNodes := by
  intro l
  induction l with
  | nil => intro c; rfl
  | cons a t ih => intro c; rw [List.foldl_cons, ih]; rfl

theorem addFold_ring (X : String) :
    ∀ (l : List Nat) (c : ConsistentHash),
      (l.foldl (addVirtual X) c).hashRing =
        c.hashRing ++ l.map (fun i => hashKey (X ++ toString i)) := by
  intro l
  induction l with
  | nil => intro c; simp
  | cons a t ih =>
    intro c
    rw [List.foldl_cons, ih, List.map_cons]
    simp [addVirtual]

theorem addFold_map_not_mem (X : String) :
    ∀ (l : List Nat) (c : ConsistentHash) (p : Nat),
      p ∉ l.map (fun i => hashKey (X ++ toString i)) →
      (l.foldl (addVirtual X) c).nodeMap p = c.nodeMap p := by
  intro l
  induction l with
  | nil => intro c p _; rfl
  | cons a t ih =>
    intro c p hp
    rw [List.map_cons, List.mem_cons] at hp
    push_neg at hp
    rw [List.foldl_cons, ih _ _ hp.2]
    simp [addVirtual, hp.1]

theorem addFold_map_mem (X : String) :
    ∀ (l : List Nat) (c : ConsistentHash) (p : Nat),
      p ∈ l.map (fun i => hashKey (X ++ toString i)) →
      (l.foldl (addVirtual X) c).nodeMap p = some X := by
  intro l
  induction l with
  | nil => intro c p hp; simp at hp
  | cons a t ih =>
    intro c p hp
    rw [List.foldl_cons]
    by_cases hpt : p ∈ t.map (fun i => hashKey (X ++ toString i))
    · exact ih _ _ hpt
    · rw [List.map_cons, List.mem_cons] at hp
      rcases hp with hpa | hpt'
      · rw [addFold_map_not_mem X t _ _ hpt]
        simp [addVirtual, hpa]
      · exact absurd hpt' hpt

/-- Characterization of `AddNode` on a non-member. -/
theorem AddNode_char (ch : ConsistentHash) (X : String)
    (hmem : ch.actualNodes X = false) :
    (ch.AddNode X).replicas = ch.replicas ∧
    (ch.AddNode X).hashRing = sortRing (ch.hashRing ++ virtualPositions ch.replicas X) ∧
    (∀ p ∈ virtualPositions ch.replicas X, (ch.AddNode X).nodeMap p = some X) ∧
    (∀ p, p ∉ virtualPositions ch.replicas X → (ch.AddNode X).nodeMap p = ch.nodeMap p) ∧
    (ch.AddNode X).actualNodes = fun n => if n = X then true else ch.actualNodes n := by
  unfold ConsistentHash.AddNode
  rw [if_neg (by simp [hmem])]
  set ch1 : ConsistentHash :=
    { ch with actualNodes := fun n => if n = X then true else ch.actualNodes n } with hch1
  refine ⟨?_, ?_, ?_, ?_, ?_⟩
  · simp [addFold_replicas]
  · simp [addFold_ring, virtualPositions]
  · intro p hp
    simpa using addFold_map_mem X (List.range ch.replicas) ch1 p (by simpa [virtualPositions] using hp)
  · intro p hp
    simpa using addFold_map_not_mem X (List.range ch.replicas) ch1 p
      (by simpa [virtualPositions] using hp)
  · simp [addFold_actualNodes]

/-! ### Characterization of the `RemoveNode` loop -/

theorem removeFold_safe (X : String) (hX : X ≠ "") :
    ∀ (l r0 : List Nat) (m : Nat → Option String),
      (∀ p ∈ r0, (m p).getD "" ≠ X) →
      ∀ p ∈ (l.foldl (removeStep X) (r0, m)).1,
        (((l.foldl (removeStep X) (r0, m)).2 p).getD "" ≠ X) := by
  intro l
  induction l with
  | nil => intro r0 m h p hp; exact h p hp
  | cons a t ih =>
    intro r0 m h p hp
    rw [List.foldl_cons] at hp ⊢
    by_cases hcond : (m a).getD "" ≠ X
    · rw [removeStep, if_pos hcond] at hp ⊢
      refine ih (r0 ++ [a]) m ?_ p hp
      intro q hq
      rcases List.mem_append.1 hq with hq | hq
      · exact h q hq
      · rw [List.mem_singleton] at hq; subst hq; exact hcond
    · rw [removeStep, if_neg hcond] at hp ⊢
      refine ih r0 _ ?_ p hp
      intro q hq
      by_cases hqa : q = a
      · subst hqa; simp [hX.symm]
      · simpa [hqa] using h q hq

theorem removeFold_sublist (X : String) :
    ∀ (l r0 : List Nat) (m : Nat → Option String),
      ∃ l', (l.foldl (removeStep X) (r0, m)).1 = r0 ++ l' ∧ l'.Sublist l := by
  intro l
  induction l with
  | nil => intro r0 m; exact ⟨[], by simp, List.Sublist.refl []⟩
  | cons a t ih =>
    intro r0 m
    rw [List.foldl_cons]
    by_cases hcond : (m a).getD "" ≠ X
    · rw [removeStep, if_pos hcond]
      obtain ⟨l', hl', hsub⟩ := ih (r0 ++ [a]) m
      exact ⟨a :: l', by simpa using hl', hsub.cons₂ a⟩
    · rw [removeStep, if_neg hcond]
      obtain ⟨l', hl', hsub⟩ := ih r0 _
      exact ⟨l', hl', hsub.cons a⟩

theorem removeFold_char (X : String) :
    ∀ (l r0 : List Nat) (m : Nat → Option String), l.Nodup →
      (l.foldl (removeStep X) (r0, m)).1 =
        r0 ++ l.filter (fun p => decide ((m p).getD "" ≠ X)) ∧
      ∀ q, (l.foldl (removeStep X) (r0, m)).2 q =
        if q ∈ l ∧ (m q).getD "" = X then none else m q := by
  intro l
  induction l with
  | nil =>
    intro r0 m _
    constructor
    · simp
    · intro q; simp
  | cons a t ih =>
    intro r0 m hnd
    rw [List.nodup_cons] at hnd
    obtain ⟨ha, hndt⟩ := hnd
    rw [List.foldl_cons]
    by_cases hcond : (m a).getD "" ≠ X
    · rw [removeStep, if_pos hcond]
      obtain ⟨ih1, ih2⟩ := ih (r0 ++ [a]) m hndt
      constructor
      · rw [ih1, List.filter_cons_of_pos (by simpa using hcond)]
        simp
      · intro q
        rw [ih2 q]
        by_cases hq : q = a
        · subst hq
          simp only [List.mem_cons, true_or, true_and]
          have : ¬ ((m q).getD "" = X) := hcond
          simp [this, ha]
        · simp [List.mem_cons, hq]
    · rw [removeStep, if_neg hcond]
      have hcond' : (m a).getD "" = X := not_not.1 hcond
      obtain ⟨ih1, ih2⟩ := ih r0 (fun p => if p = a then none else m p) hndt
      constructor
      · rw [ih1, List.filter_cons_of_neg (by simpa using hcond)]
        congr 1
        apply List.filter_congr
        intro p hp
        have hpa : p ≠ a := fun h => ha (h ▸ hp)
        simp [hpa]
      · intro q
        rw [ih2 q]
        by_cases hq : q = a
        · subst hq
          simp [ha, hcond']
        · simp [List.mem_cons, hq]

/-- Unfolding `RemoveNode` on a member. -/
theorem RemoveNode_eq (ch : ConsistentHash) (X : String)
    (hmem : ch.actualNodes X = true) :
    ch.RemoveNode X =
      { replicas := ch.replicas
        hashRing := (ch.hashRing.foldl (removeStep X) ([], ch.nodeMap)).1
        nodeMap := (ch.hashRing.foldl (removeStep X) ([], ch.nodeMap)).2
        actualNodes := fun n => if n = X then false else ch.actualNodes n } := by
  unfold ConsistentHash.RemoveNode
  rw [if_pos hmem]

/-- Characterization of `RemoveNode` on a member, given a duplicate-free ring. -/
theorem RemoveNode_char (ch : ConsistentHash) (X : String)
    (hmem : ch.actualNodes X = true) (hnd : ch.hashRing.Nodup) :
    (ch.RemoveNode X).replicas = ch.replicas ∧
    (ch.RemoveNode X).hashRing = survivors ch X ∧
    (∀ q, (ch.RemoveNode X).nodeMap q =
      if q ∈ ch.hashRing ∧ (ch.nodeMap q).getD "" = X then none else ch.nodeMap q) ∧
    (ch.RemoveNode X).actualNodes = fun n => if n = X then false else ch.actualNodes n := by
  obtain ⟨h1, h2⟩ := removeFold_char X ch.hashRing [] ch.nodeMap hnd
  rw [RemoveNode_eq ch X hmem]
  exact ⟨rfl, by simpa [survivors] using h1, h2, rfl⟩

/-! ### The clockwise position and filtered rings -/

theorem clockwisePos_mem (l : List Nat) (h : Nat) (hne : l ≠ []) :
    clockwisePos l h ∈ l := by
  unfold clockwisePos
  cases hmin : (l.filter (fun p => decide (h ≤ p))).min? with
  | some p =>
    exact List.mem_of_mem_filter (List.min?_eq_some_iff'.1 hmin).1
  | none =>
    cases hm : l.min? with
    | none => exact absurd (List.min?_eq_none_iff.1 hm) hne
    | some m => simpa [hm] using (List.min?_eq_some_iff'.1 hm).1

/-- Filtering a sorted ring does not move the clockwise position, as long as
the position itself survives the filter. -/
theorem clockwisePos_filter (l : List Nat) (pred : Nat → Bool) (h : Nat)
    (hs : l.Sorted (· ≤ ·)) (hne : l ≠ [])
    (hp : pred (clockwisePos l h) = true) :
    clockwisePos (l.filter pred) h = clockwisePos l h := by
  cases hmin : (l.filter (fun p => decide (h ≤ p))).min? with
  | some p =>
    have hcp : clockwisePos l h = p := clockwisePos_of_found l h hmin
    obtain ⟨hpmem, hlb⟩ := List.min?_eq_some_iff'.1 hmin
    rw [List.mem_filter] at hpmem
    have hmin' : ((l.filter pred).filter (fun q => decide (h ≤ q))).min? = some p := by
      rw [List.min?_eq_some_iff']
      constructor
      · rw [List.mem_filter]
        exact ⟨List.mem_filter.2 ⟨hpmem.1, hcp ▸ hp⟩, hpmem.2⟩
      · intro b hb
        rw [List.mem_filter] at hb
        exact hlb b (List.mem_filter.2 ⟨List.mem_of_mem_filter hb.1, hb.2⟩)
    rw [clockwisePos_of_found _ _ hmin', hcp]
  | none =>
    have hfe : l.filter (fun q => decide (h ≤ q)) = [] := List.min?_eq_none_iff.1 hmin
    have hlm : l.min? = some (l.getD 0 0) := sorted_min?_eq l hs hne
    have hcp0 : clockwisePos l h = l.getD 0 0 := by
      rw [clockwisePos_of_none l h hmin, hlm]
      rfl
    have hfe2 : (l.filter pred).filter (fun q => decide (h ≤ q)) = [] := by
      rw [List.filter_eq_nil_iff] at hfe ⊢
      intro a ha
      exact hfe a (List.mem_of_mem_filter ha)
    rw [clockwisePos_of_none _ _ (by rw [hfe2]; rfl)]
    have hmin2 : (l.filter pred).min? = some (l.getD 0 0) := by
      rw [List.min?_eq_some_iff']
      constructor
      · rw [List.mem_filter]
        refine ⟨?_, hcp0 ▸ hp⟩
        have hlen : 0 < l.length := List.length_pos.2 hne
        rw [getD_eq_getElem_zero l hlen]
        exact List.getElem_mem hlen
      · intro b hb
        exact (List.min?_eq_some_iff'.1 hlm).2 b (List.mem_of_mem_filter hb)
    rw [hmin2, hcp0]
    rfl

/-! ### Claim theorems -/

/-- C1: on a (sorted, per the data-model invariant) ring with at least one
position, `GetNode key` returns the owner of the smallest position that is
`≥ hashKey key`, and if no position qualifies it wraps around to the owner
of the smallest (first) position — `clockwisePos` is exactly that selection
rule, written from the spec. -/
theorem getNode_resolves_clockwise (ch : ConsistentHash) (key : String)
    (hs : ch.hashRing.Sorted (· ≤ ·)) (hne : ch.hashRing ≠ []) :
    ch.GetNode key = (ch.nodeMap (clockwisePos ch.hashRing (hashKey key))).getD "" :=
  GetNode_clockwise ch key hs hne

theorem getNode_resolves_clockwise_witness :
    ringAB.hashRing.Sorted (· ≤ ·) ∧ ringAB.hashRing ≠ [] ∧
      ringAB.GetNode "k" =
        (ringAB.nodeMap (clockwisePos ringAB.hashRing (hashKey "k"))).getD "" :=
  ⟨by decide, by decide, getNode_resolves_clockwise ringAB "k" (by decide) (by decide)⟩

/-- C2: with a duplicate-free (no hash collisions) sorted ring, removing a
member `X` leaves `GetNode` unchanged on every key whose resolved position
is not owned by `X`. -/
theorem removeNode_minimal_disruption (ch : ConsistentHash) (X key : String)
    (hs : ch.hashRing.Sorted (· ≤ ·)) (hnd : ch.hashRing.Nodup)
    (hmem : ch.actualNodes X = true)
    (howner : (ch.nodeMap (clockwisePos ch.hashRing (hashKey key))).getD "" ≠ X) :
    (ch.RemoveNode X).GetNode key = ch.GetNode key := by
  by_cases hne : ch.hashRing = []
  · have hring : (ch.RemoveNode X).hashRing = [] := by
      rw [RemoveNode_eq ch X hmem]
      simp [hne]
    rw [GetNode_nil _ key hring, GetNode_nil ch key hne]
  · obtain ⟨-, hring, hmap, -⟩ := RemoveNode_char ch X hmem hnd
    set p := clockwisePos ch.hashRing (hashKey key) with hp
    have hpmem : p ∈ ch.hashRing := clockwisePos_mem _ _ hne
    have hpsurv : p ∈ survivors ch X :=
      List.mem_filter.2 ⟨hpmem, decide_eq_true howner⟩
    have hsne : survivors ch X ≠ [] := List.ne_nil_of_mem hpsurv
    have hne' : (ch.RemoveNode X).hashRing ≠ [] := by rw [hring]; exact hsne
    have hs' : (ch.RemoveNode X).hashRing.Sorted (· ≤ ·) := by
      rw [hring]
      exact hs.filter _
    rw [GetNode_clockwise _ key hs' hne', GetNode_clockwise ch key hs hne]
    rw [hring]
    have hcw : clockwisePos (survivors ch X) (hashKey key) = p :=
      clockwisePos_filter ch.hashRing _ (hashKey key) hs hne (decide_eq_true howner)
    rw [hcw, hmap p]
    rw [if_neg]
    intro hcontra
    exact howner (by rw [hcontra.2])

set_option maxRecDepth 100000 in
theorem removeNode_minimal_disruption_witness :
    ringKW.hashRing.Sorted (· ≤ ·) ∧ ringKW.hashRing.Nodup ∧
      ringKW.actualNodes "B" = true ∧
      (ringKW.nodeMap (clockwisePos ringKW.hashRing (hashKey "k"))).getD "" ≠ "B" ∧
      (ringKW.RemoveNode "B").GetNode "k" = ringKW.GetNode "k" :=
  ⟨by decide, by decide, by decide, by decide,
    removeNode_minimal_disruption ringKW "B" "k" (by decide) (by decide) (by decide)
      (by decide)⟩

/-- C3 (amended): after removing a member `X` from a sorted collision-free
ring, `GetNode` never returns `X` provided `X` is not the empty identifier
(which coincides with `GetNode`'s empty sentinel), and — whenever any
position survives — every key resolves to the next surviving position
clockwise: the clockwise selection over the surviving position list. -/
theorem removeNode_removal_correct (ch : ConsistentHash) (X key : String)
    (hs : ch.hashRing.Sorted (· ≤ ·)) (hnd : ch.hashRing.Nodup)
    (hmem : ch.actualNodes X = true) (hX : X ≠ "") :
    (ch.RemoveNode X).GetNode key ≠ X ∧
      (survivors ch X ≠ [] →
        (ch.RemoveNode X).GetNode key =
          (ch.nodeMap (clockwisePos (survivors ch X) (hashKey key))).getD "") := by
  constructor
  · -- GetNode never returns the removed node
    have hsafe := removeFold_safe X hX ch.hashRing [] ch.nodeMap (by simp)
    by_cases hne' : (ch.RemoveNode X).hashRing = []
    · rw [GetNode_nil _ key hne']
      exact Ne.symm hX
    · obtain ⟨p, hp, heq⟩ := GetNode_mem _ key hne'
      rw [heq]
      rw [RemoveNode_eq ch X hmem] at hp ⊢
      exact hsafe p hp
  · -- keys move to the next surviving position clockwise
    intro hsne
    obtain ⟨-, hring, hmap, -⟩ := RemoveNode_char ch X hmem hnd
    have hne : ch.hashRing ≠ [] := by
      intro hcontra
      apply hsne
      simp [survivors, hcontra]
    have hne' : (ch.RemoveNode X).hashRing ≠ [] := by rw [hring]; exact hsne
    have hs' : (ch.RemoveNode X).hashRing.Sorted (· ≤ ·) := by
      rw [hring]
      exact hs.filter _
    rw [GetNode_clockwise _ key hs' hne', hring]
    set q := clockwisePos (survivors ch X) (hashKey key) with hq
    have hqmem : q ∈ survivors ch X := clockwisePos_mem _ _ hsne
    simp only [survivors] at hqmem
    rw [List.mem_filter] at hqmem
    rw [hmap q, if_neg]
    intro hcontra
    exact (of_decide_eq_true hqmem.2) hcontra.2

theorem removeNode_removal_correct_witness :
    ringKW.hashRing.Sorted (· ≤ ·) ∧ ringKW.hashRing.Nodup ∧
      ringKW.actualNodes "B" = true ∧ "B" ≠ "" ∧
      (ringKW.RemoveNode "B").GetNode "k" ≠ "B" ∧
      (survivors ringKW "B" ≠ [] →
        (ringKW.RemoveNode "B").GetNode "k" =
          (ringKW.nodeMap (clockwisePos (survivors ringKW "B") (hashKey "k"))).getD "") :=
  ⟨by decide, by decide, by decide, by decide,
    (removeNode_removal_correct ringKW "B" "k" (by decide) (by decide) (by decide)
      (by decide)).1,
    (removeNode_removal_correct ringKW "B" "k" (by decide) (by decide) (by decide)
      (by decide)).2⟩

/-- C3 counterexample: the node whose identifier is the empty string is a
member of `ringNilName`; after removing it, `GetNode` returns `""` — which
is exactly the removed node's identifier, so "GetNode never returns X after
RemoveNode(X)" fails at X = `""`. -/
theorem removeNode_returns_removed_name :
    ringNilName.actualNodes "" = true ∧
      (ringNilName.RemoveNode "").GetNode "anykey" = "" := by
  decide

/-- C4: `AddNode` is idempotent — a second `AddNode X` right after a first
leaves the ring state (positions, owners, membership) exactly as after the
first, and `AddNode` on an existing member is a no-op. -/
theorem addNode_idem (ch : ConsistentHash) (X : String) :
    (ch.AddNode X).AddNode X = ch.AddNode X ∧
      (ch.actualNodes X = true → ch.AddNode X = ch) := by
  have hnoop : ∀ c : ConsistentHash, c.actualNodes X = true → c.AddNode X = c := by
    intro c h
    unfold ConsistentHash.AddNode
    rw [if_pos h]
  constructor
  · by_cases hmem : ch.actualNodes X = true
    · rw [hnoop ch hmem]
      exact hnoop ch hmem
    · have hmem' : ch.actualNodes X = false := by
        simpa using hmem
      obtain ⟨-, -, -, -, hact⟩ := AddNode_char ch X hmem'
      exact hnoop _ (by rw [hact]; simp)
  · exact hnoop ch

theorem addNode_idem_witness :
    (ringAB.AddNode "A").AddNode "A" = ringAB.AddNode "A" ∧ ringAB.AddNode "A" = ringAB :=
  ⟨(addNode_idem ringAB "A").1, (addNode_idem ringAB "A").2 (by decide)⟩

/-- C6: the position list of a fresh ring is sorted, `AddNode` always leaves
a sorted list (it re-sorts), and on a sorted list `RemoveNode` leaves a
sorted list, filtering it without reordering (the result is a sublist of the
input). -/
theorem ring_sorted_invariant (n : Nat) (ch : ConsistentHash) (X Y : String)
    (hs : ch.hashRing.Sorted (· ≤ ·)) :
    (NewConsistentHash n).hashRing.Sorted (· ≤ ·) ∧
      (ch.AddNode X).hashRing.Sorted (· ≤ ·) ∧
      (ch.RemoveNode Y).hashRing.Sorted (· ≤ ·) ∧
      (ch.RemoveNode Y).hashRing.Sublist ch.hashRing := by
  have hrm : (ch.RemoveNode Y).hashRing.Sublist ch.hashRing := by
    by_cases hmem : ch.actualNodes Y = true
    · rw [RemoveNode_eq ch Y hmem]
      obtain ⟨l', hl', hsub⟩ := removeFold_sublist Y ch.hashRing [] ch.nodeMap
      simpa [hl'] using hsub
    · unfold ConsistentHash.RemoveNode
      rw [if_neg hmem]
  refine ⟨?_, ?_, List.Pairwise.sublist hrm hs, hrm⟩
  · simp [NewConsistentHash]
  · by_cases hmem : ch.actualNodes X = true
    · unfold ConsistentHash.AddNode
      rw [if_pos hmem]
      exact hs
    · obtain ⟨-, hring, -, -, -⟩ := AddNode_char ch X (by simpa using hmem)
      rw [hring]
      exact List.sorted_insertionSort _ _

theorem ring_sorted_invariant_witness :
    (NewConsistentHash 3).hashRing.Sorted (· ≤ ·) ∧
      (ringAB.AddNode "C").hashRing.Sorted (· ≤ ·) ∧
      (ringAB.RemoveNode "B").hashRing.Sorted (· ≤ ·) ∧
      (ringAB.RemoveNode "B").hashRing.Sublist ringAB.hashRing :=
  ring_sorted_invariant 3 ringAB "C" "B" (by decide)

/-- C7 (amended): `GetNode` returns the empty sentinel on a ring with zero
positions, and on a nonempty ring it never returns the empty string
provided every on-ring position's owner is a nonempty identifier — a node
added under the identifier `""` makes `GetNode` return `""` despite a
nonempty ring, so the unconditional iff of the claim fails. -/
theorem getNode_empty_sentinel (ch : ConsistentHash) (key : String) :
    (ch.hashRing = [] → ch.GetNode key = "") ∧
      (ch.hashRing ≠ [] → (∀ p ∈ ch.hashRing, (ch.nodeMap p).getD "" ≠ "") →
        ch.GetNode key ≠ "") := by
  constructor
  · intro h
    exact GetNode_nil ch key h
  · intro hne hown
    obtain ⟨p, hp, heq⟩ := GetNode_mem ch key hne
    rw [heq]
    exact hown p hp

theorem getNode_empty_sentinel_witness :
    (NewConsistentHash 3).GetNode "w" = "" ∧ ringAB.GetNode "k" ≠ "" :=
  ⟨(getNode_empty_sentinel (NewConsistentHash 3) "w").1 rfl,
    (getNode_empty_sentinel ringAB "k").2 (by decide) (by decide)⟩

set_option maxRecDepth 400000 in
/-- C7 counterexample: after `AddNode ""` (a node genuinely added, with
`replicaCount = 1 > 0`) the ring has a position, yet `GetNode` returns the
empty result — the claimed "empty iff zero positions" equivalence fails. -/
theorem getNode_empty_on_nonempty_ring :
    ((NewConsistentHash 1).AddNode "").hashRing ≠ [] ∧
      ((NewConsistentHash 1).AddNode "").GetNode "k" = "" := by
  decide

/-- C9: a `GetNode` call leaves the receiver unchanged, a second call with
the same key on the resulting state returns the same string, and the result
depends only on the position list and owner mapping of the ring state. -/
theorem getNode_readonly_deterministic (ch : ConsistentHash) (key : String) :
    (ch.GetNodeCall key).2 = ch ∧
      ((ch.GetNodeCall key).2.GetNodeCall key).1 = (ch.GetNodeCall key).1 ∧
      (∀ ch₂ : ConsistentHash, ch.hashRing = ch₂.hashRing →
        ch.nodeMap = ch₂.nodeMap → ch.GetNode key = ch₂.GetNode key) := by
  refine ⟨rfl, rfl, ?_⟩
  intro ch₂ h1 h2
  unfold ConsistentHash.GetNode
  rw [h1, h2]

theorem getNode_readonly_deterministic_witness :
    (ringAB.GetNodeCall "k").2 = ringAB ∧
      ((ringAB.GetNodeCall "k").2.GetNodeCall "k").1 = (ringAB.GetNodeCall "k").1 ∧
      ringAB.GetNode "k" = ringABFrame.GetNode "k" :=
  ⟨(getNode_readonly_deterministic ringAB "k").1,
    (getNode_readonly_deterministic ringAB "k").2.1,
    (getNode_readonly_deterministic ringAB "k").2.2 ringABFrame rfl rfl⟩

/-! ### Byte-level lemmas for the hash -/

theorem toBytesBE_mem_lt (n x b : Nat) (hb : b ∈ toBytesBE n x) : b < 256 := by
  unfold toBytesBE at hb
  rw [List.mem_map] at hb
  obtain ⟨i, -, rfl⟩ := hb
  exact Nat.mod_lt _ (by norm_num)

theorem sha1_length (m : List Nat) : (sha1 m).length = 20 := by
  unfold sha1
  simp [toBytesBE]

theorem sha1_bytes_lt (m : List Nat) : ∀ b ∈ sha1 m, b < 256 := by
  unfold sha1
  intro b hb
  simp only [List.mem_append] at hb
  rcases hb with ((((h | h) | h) | h) | h) <;> exact toBytesBE_mem_lt _ _ _ h

theorem take_four (l : List Nat) (h : 4 ≤ l.length) :
    l.take 4 = [l.getD 0 0, l.getD 1 0, l.getD 2 0, l.getD 3 0] := by
  match l, h with
  | a :: b :: c :: d :: rest, _ => simp [List.getD]

theorem beNat_four (b0 b1 b2 b3 : Nat) :
    beNat [b0, b1, b2, b3] = ((b0 * 256 + b1) * 256 + b2) * 256 + b3 := by
  simp [beNat, List.foldl]
  ring

theorem bytes_lor_eq (b0 b1 b2 b3 : Nat) (h1 : b1 < 256) (h2 : b2 < 256)
    (h3 : b3 < 256) :
    (b0 <<< 24) ||| (b1 <<< 16) ||| (b2 <<< 8) ||| b3 =
      ((b0 * 256 + b1) * 256 + b2) * 256 + b3 := by
  have e1 : b0 <<< 24 ||| b1 <<< 16 = 2 ^ 24 * b0 + b1 * 2 ^ 16 := by
    rw [Nat.shiftLeft_eq, Nat.shiftLeft_eq, Nat.mul_comm b0 (2 ^ 24)]
    exact (Nat.mul_add_lt_is_or (by norm_num; omega) b0).symm
  have e2 : (2 ^ 24 * b0 + b1 * 2 ^ 16) ||| b2 <<< 8 =
      2 ^ 24 * b0 + b1 * 2 ^ 16 + b2 * 2 ^ 8 := by
    rw [Nat.shiftLeft_eq,
      show 2 ^ 24 * b0 + b1 * 2 ^ 16 = 2 ^ 16 * (2 ^ 8 * b0 + b1) by ring]
    rw [(Nat.mul_add_lt_is_or (i := 16) (b := b2 * 2 ^ 8) (by norm_num; omega)
      (2 ^ 8 * b0 + b1)).symm]
  have e3 : (2 ^ 24 * b0 + b1 * 2 ^ 16 + b2 * 2 ^ 8) ||| b3 =
      2 ^ 24 * b0 + b1 * 2 ^ 16 + b2 * 2 ^ 8 + b3 := by
    rw [show 2 ^ 24 * b0 + b1 * 2 ^ 16 + b2 * 2 ^ 8 =
      2 ^ 8 * (2 ^ 16 * b0 + 2 ^ 8 * b1 + b2) by ring]
    rw [(Nat.mul_add_lt_is_or (i := 8) (b := b3) (by norm_num; omega)
      (2 ^ 16 * b0 + 2 ^ 8 * b1 + b2)).symm]
  rw [e1, e2, e3]
  ring

/-- C8: `hashKey` is a function of the input string alone (determinism), its
value is the big-endian integer formed by the first four bytes of the SHA-1
digest of the input's bytes, and it fits in 32 bits.  The ring places node
replica strings and lookup keys with this same function. -/
theorem hashKey_first_four_sha1 (s : String) :
    hashKey s = beNat ((sha1 (strBytes s)).take 4) ∧ hashKey s < 4294967296 := by
  have hlen : (sha1 (strBytes s)).length = 20 := sha1_length _
  have hlt : ∀ i, i < 20 → (sha1 (strBytes s)).getD i 0 < 256 := by
    intro i hi
    have hi' : i < (sha1 (strBytes s)).length := by omega
    rw [getD_eq_getElem_zero _ hi']
    exact sha1_bytes_lt _ _ (List.getElem_mem hi')
  have h0 := hlt 0 (by norm_num)
  have h1 := hlt 1 (by norm_num)
  have h2 := hlt 2 (by norm_num)
  have h3 := hlt 3 (by norm_num)
  have htake : (sha1 (strBytes s)).take 4 =
      [(sha1 (strBytes s)).getD 0 0, (sha1 (strBytes s)).getD 1 0,
       (sha1 (strBytes s)).getD 2 0, (sha1 (strBytes s)).getD 3 0] :=
    take_four _ (by omega)
  have hkey : hashKey s =
      ((sha1 (strBytes s)).getD 0 0 <<< 24) ||| ((sha1 (strBytes s)).getD 1 0 <<< 16) |||
        ((sha1 (strBytes s)).getD 2 0 <<< 8) ||| (sha1 (strBytes s)).getD 3 0 := rfl
  constructor
  · rw [hkey, htake, bytes_lor_eq _ _ _ _ h1 h2 h3, beNat_four]
  · rw [hkey, bytes_lor_eq _ _ _ _ h1 h2 h3]
    omega

/-- C5: adding a non-member `X` extends the ring by exactly the
`replicaCount` virtual positions `hashKey (X ++ decimal i)`, `i` ranging
over `0 .. replicaCount-1` (so duplicates stay in the list: every
position's multiplicity grows by its multiplicity among the new
positions), records `X` as owner of each new position — overwriting any
previous owner of an equal position — leaves every other owner entry
unchanged, marks `X` a member without touching other memberships, and
leaves a list that is sorted as a whole. -/
theorem addNode_inserts_replicas (ch : ConsistentHash) (X : String)
    (hmem : ch.actualNodes X = false) :
    (ch.AddNode X).hashRing.Perm (ch.hashRing ++ virtualPositions ch.replicas X) ∧
      (ch.AddNode X).hashRing.length = ch.hashRing.length + ch.replicas ∧
      (ch.AddNode X).hashRing.Sorted (· ≤ ·) ∧
      (∀ p, (ch.AddNode X).hashRing.count p =
        ch.hashRing.count p + (virtualPositions ch.replicas X).count p) ∧
      (∀ p ∈ virtualPositions ch.replicas X, (ch.AddNode X).nodeMap p = some X) ∧
      (∀ p, p ∉ virtualPositions ch.replicas X →
        (ch.AddNode X).nodeMap p = ch.nodeMap p) ∧
      (ch.AddNode X).actualNodes X = true ∧
      (∀ n, n ≠ X → (ch.AddNode X).actualNodes n = ch.actualNodes n) := by
  obtain ⟨hrep, hring, hmapNew, hmapOld, hact⟩ := AddNode_char ch X hmem
  have hperm : (ch.AddNode X).hashRing.Perm
      (ch.hashRing ++ virtualPositions ch.replicas X) := by
    rw [hring]
    exact List.perm_insertionSort _ _
  refine ⟨hperm, ?_, ?_, ?_, hmapNew, hmapOld, ?_, ?_⟩
  · rw [hperm.length_eq]
    simp [virtualPositions]
  · rw [hring]
    exact List.sorted_insertionSort _ _
  · intro p
    rw [hperm.count_eq, List.count_append]
  · rw [hact]
    simp
  · intro n hn
    rw [hact]
    simp [hn]

theorem addNode_inserts_replicas_witness :
    ringAB.actualNodes "C" = false ∧
      (ringAB.AddNode "C").hashRing.Perm
        (ringAB.hashRing ++ virtualPositions ringAB.replicas "C") ∧
      (ringAB.AddNode "C").hashRing.length = ringAB.hashRing.length + ringAB.replicas :=
  ⟨by decide, (addNode_inserts_replicas ringAB "C" (by decide)).1,
    (addNode_inserts_replicas ringAB "C" (by decide)).2.1⟩

/-- Two ring states with equal fields are equal. -/
theorem ConsistentHash.ext_fields (c1 c2 : ConsistentHash)
    (h1 : c1.replicas = c2.replicas) (h2 : c1.hashRing = c2.hashRing)
    (h3 : c1.nodeMap = c2.nodeMap) (h4 : c1.actualNodes = c2.actualNodes) :
    c1 = c2 := by
  cases c1
  cases c2
  simp only at h1 h2 h3 h4
  subst h1 h2 h3 h4
  rfl

/-- C10: under the data-model invariants (sorted, duplicate-free ring whose
owner entries are exactly the on-ring positions and never name a
non-member), adding a non-member `X` whose virtual positions are pairwise
distinct and absent from the ring and then removing `X` restores the ring
state exactly. -/
theorem addNode_removeNode_roundtrip (ch : ConsistentHash) (X : String)
    (hs : ch.hashRing.Sorted (· ≤ ·)) (hnd : ch.hashRing.Nodup)
    (hmem : ch.actualNodes X = false)
    (hown : ∀ p ∈ ch.hashRing, (ch.nodeMap p).getD "" ≠ X)
    (hdom : ∀ p, p ∉ ch.hashRing → ch.nodeMap p = none)
    (hfresh : (virtualPositions ch.replicas X).Nodup)
    (hdisj : ∀ p ∈ virtualPositions ch.replicas X, p ∉ ch.hashRing) :
    (ch.AddNode X).RemoveNode X = ch := by
  obtain ⟨hrep, hring, hmapNew, hmapOld, hact⟩ := AddNode_char ch X hmem
  have hmem' : (ch.AddNode X).actualNodes X = true := by
    rw [hact]; simp
  have hpermAdd : (ch.AddNode X).hashRing.Perm
      (ch.hashRing ++ virtualPositions ch.replicas X) := by
    rw [hring]; exact List.perm_insertionSort _ _
  have hnd' : (ch.AddNode X).hashRing.Nodup := by
    rw [hpermAdd.nodup_iff, List.nodup_append]
    exact ⟨hnd, hfresh, fun a ha hn => hdisj a hn ha⟩
  obtain ⟨hrep', hring', hmap', hact'⟩ := RemoveNode_char _ X hmem' hnd'
  -- owners on the augmented ring
  have hmemSplit : ∀ p ∈ (ch.AddNode X).hashRing,
      p ∈ ch.hashRing ∨ p ∈ virtualPositions ch.replicas X := by
    intro p hp
    exact List.mem_append.1 (hpermAdd.mem_iff.1 hp)
  -- the survivors of the augmented ring are exactly the old ring
  have hsurv : survivors (ch.AddNode X) X = ch.hashRing := by
    have hpermSurv : (survivors (ch.AddNode X) X).Perm
        ((ch.hashRing ++ virtualPositions ch.replicas X).filter
          (fun p => decide (((ch.AddNode X).nodeMap p).getD "" ≠ X))) := by
      unfold survivors
      exact hpermAdd.filter _
    have hfilterOld : ch.hashRing.filter
        (fun p => decide (((ch.AddNode X).nodeMap p).getD "" ≠ X)) = ch.hashRing := by
      rw [List.filter_eq_self]
      intro p hp
      have hpnot : p ∉ virtualPositions ch.replicas X := fun hin => hdisj p hin hp
      rw [hmapOld p hpnot]
      exact decide_eq_true (hown p hp)
    have hfilterNew : (virtualPositions ch.replicas X).filter
        (fun p => decide (((ch.AddNode X).nodeMap p).getD "" ≠ X)) = [] := by
      rw [List.filter_eq_nil_iff]
      intro p hp
      rw [hmapNew p hp]
      simp
    have hperm2 : (survivors (ch.AddNode X) X).Perm ch.hashRing := by
      rw [List.filter_append, hfilterOld, hfilterNew, List.append_nil] at hpermSurv
      exact hpermSurv
    have hsorted' : (survivors (ch.AddNode X) X).Sorted (· ≤ ·) := by
      unfold survivors
      refine List.Pairwise.filter _ ?_
      rw [hring]
      exact List.sorted_insertionSort _ _
    exact List.eq_of_perm_of_sorted hperm2 hsorted' hs
  refine ConsistentHash.ext_fields _ _ ?_ ?_ ?_ ?_
  · rw [hrep', hrep]
  · rw [hring', hsurv]
  · funext q
    rw [hmap' q]
    by_cases hq : q ∈ virtualPositions ch.replicas X
    · rw [if_pos]
      · exact (hdom q (hdisj q hq)).symm
      · refine ⟨hpermAdd.mem_iff.2 (List.mem_append.2 (Or.inr hq)), ?_⟩
        rw [hmapNew q hq]
        rfl
    · rw [hmapOld q hq, if_neg]
      intro hcontra
      rcases hmemSplit q hcontra.1 with hold | hnew
      · exact hown q hold hcontra.2
      · exact hq hnew
  · funext n
    rw [hact', hact]
    by_cases hn : n = X
    · subst hn
      simp [hmem]
    · simp [hn]

set_option maxRecDepth 400000 in
theorem addNode_removeNode_roundtrip_witness :
    ringAB.hashRing.Sorted (· ≤ ·) ∧ ringAB.hashRing.Nodup ∧
      ringAB.actualNodes "C" = false ∧
      (ringAB.AddNode "C").RemoveNode "C" = ringAB :=
  ⟨by decide, by decide, by decide,
    addNode_removeNode_roundtrip ringAB "C" (by decide) (by decide) (by decide)
      (by decide)
      (by
        intro p hp
        simp only [ringAB, List.mem_cons, List.not_mem_nil, or_false] at hp
        push_neg at hp
        simp [ringAB, hp.1, hp.2])
      (by decide) (by decide)⟩
